import Mathlib

/-
Verification of the SmartMediaCleaner scan-and-fingerprint engine.

Shallow embedding of:
- src/core/db_manager.py  (DBManager: the SQLite feature cache)
- src/core/scanner.py     (ScanWorker.run: the scan pipeline; select_best_shot)
- src/results_view.py     (ResultsView._recalculate_groups: threshold re-grouping)

Machine floats (mtimes, blur scores, durations) are modelled as rationals;
SQLite rows as an explicit Python-dict-like association-list / function model;
Python exceptions as Except.
-/

namespace SMC

/-! ## Python dict model

Python dicts preserve insertion order.  `dictSet` models `d[k] = v`
(replace in place when the key is present, else append at the end);
`dictAppend` models the `if k not in d: d[k] = []` / `d[k].append(v)`
idiom used for `phash_map` and `video_content_map`; `dictGet` models `d[k]`. -/

variable {κ α : Type} [DecidableEq κ]

/-- Python dict assignment `d[k] = v` on an insertion-ordered association list. -/
def dictSet (k : κ) (v : α) : List (κ × α) → List (κ × α)
  | [] => [(k, v)]
  | e :: es => if e.1 = k then (k, v) :: es else e :: dictSet k v es

/-- The `if k not in d: d[k] = []` then `d[k].append(v)` idiom. -/
def dictAppend (k : κ) (v : α) : List (κ × List α) → List (κ × List α)
  | [] => [(k, [v])]
  | e :: es => if e.1 = k then (e.1, e.2 ++ [v]) :: es else e :: dictAppend k v es

/-- Python dict lookup. -/
def dictGet (k : κ) : List (κ × α) → Option α
  | [] => none
  | e :: es => if e.1 = k then some e.2 else dictGet k es

/-! ## Feature cache (src/core/db_manager.py) -/

/-- One row of the `media_cache` table (db_manager.py, `CREATE TABLE`).
`last_modified` and `file_size` are always written by `upsert_cache`, the
feature columns are nullable. -/
structure CacheEntry where
  last_modified : ℚ
  file_size : ℤ
  blur_score : Option ℚ
  phash : Option String
  video_hash : Option String
  face_count : Option ℤ
  video_duration : Option ℚ
  video_frame_hash : Option String
deriving Repr, DecidableEq

/-- The SQLite store behind an open connection.  `entries` is the table keyed
by `file_path`; `readFault p` (resp. `writeFault p`) models a `sqlite3.Error`
raised while reading (resp. writing) the row for `p`, which `get_cache` /
`upsert_cache` catch internally. -/
structure Store where
  entries : String → Option CacheEntry
  readFault : String → Bool
  writeFault : String → Bool

/-- The DBManager connection state: `none` models a failed `_init_db`
(`sqlite3.connect` raised, the error was caught and printed, and both
`self.conn` and `self.cursor` stay `None`). -/
abbrev DB := Option Store

/-- db_manager.get_cache.  With an open connection, a `sqlite3.Error` during the
SELECT is caught and `None` is returned; a missing row also returns `None`.
With a failed connection, `self.cursor` is `None`, so `self.cursor.execute`
raises `AttributeError`, which the `except sqlite3.Error` clause does NOT
catch: the exception escapes (modelled as `.error ()`). -/
def get_cache (db : DB) (file_path : String) : Except Unit (Option CacheEntry) :=
  match db with
  | none => .error ()
  | some st => if st.readFault file_path then .ok none else .ok (st.entries file_path)

/-- db_manager.is_cache_valid: fetches the row through `get_cache` and checks
the (mtime, size) fingerprint: `abs(cache['last_modified'] - current_mtime) <
0.001 and cache['file_size'] == current_size`. -/
def is_cache_valid (db : DB) (file_path : String) (current_mtime : ℚ) (current_size : ℤ) :
    Except Unit Bool :=
  match get_cache db file_path with
  | .error e => .error e
  | .ok none => .ok false
  | .ok (some c) =>
      .ok (decide (|c.last_modified - current_mtime| < 1/1000 ∧ c.file_size = current_size))

/-- db_manager.upsert_cache: `INSERT OR REPLACE` of the whole row.  A
`sqlite3.Error` on write is caught (store unchanged); with a failed connection
`self.cursor.execute` raises `AttributeError` (uncaught, `.error ()`). -/
def upsert_cache (db : DB) (file_path : String) (last_modified : ℚ) (file_size : ℤ)
    (blur_score : Option ℚ) (phash : Option String) (video_hash : Option String)
    (face_count : Option ℤ) (video_duration : Option ℚ) (video_frame_hash : Option String) :
    Except Unit DB :=
  match db with
  | none => .error ()
  | some st =>
      if st.writeFault file_path then .ok (some st)
      else
        let row : CacheEntry :=
          ⟨last_modified, file_size, blur_score, phash, video_hash,
           face_count, video_duration, video_frame_hash⟩
        .ok (some { st with entries := fun p => if p = file_path then some row else st.entries p })

/-! ## Per-file feature extraction (src/core/scanner.py lines 89-119) -/

/-- scanner.py IMAGE_EXTENSIONS. -/
def IMAGE_EXTENSIONS : List String := [".jpg", ".jpeg", ".png", ".bmp", ".tiff", ".webp"]

/-- scanner.py VIDEO_EXTENSIONS. -/
def VIDEO_EXTENSIONS : List String := [".mp4", ".avi", ".mov", ".mkv", ".flv", ".wmv"]

/-- Lowercases a string character-wise, modelling `str.lower()` (paths here are
ASCII). -/
def strLower (s : String) : String := ⟨s.data.map Char.toLower⟩

/-- Models `s.endswith(suffix)`. -/
def strEndsWith (s suffix : String) : Bool := suffix.data.isSuffixOf s.data

/-- Models `file_path.lower().endswith(tuple(IMAGE_EXTENSIONS))`. -/
def isImagePath (p : String) : Bool := IMAGE_EXTENSIONS.any (fun e => strEndsWith (strLower p) e)

/-- Models `file_path.lower().endswith(tuple(VIDEO_EXTENSIONS))`. -/
def isVideoPath (p : String) : Bool := VIDEO_EXTENSIONS.any (fun e => strEndsWith (strLower p) e)

/-- One file as the scan loop sees it through `os.stat`. -/
structure DiskFile where
  path : String
  mtime : ℚ
  size : ℤ
deriving Repr, DecidableEq

/-- The content-derived feature computations `_calculate_blur_score`,
`_calculate_phash`, `_detect_faces`, `_calculate_video_hash`,
`_analyze_video_content`, abstracted as pure oracles over the file path (they
read the file's bytes, which the scan state does not contain).  Each oracle's
value already reflects that function's internal exception handling: blur
returns the 1000.0 sentinel on decode failure, phash returns `""` on failure,
faces returns 0, `_analyze_video_content` returns `(none, none)` when the
container cannot be opened. -/
structure Extractors where
  calcBlur : String → ℚ
  calcPhash : String → String
  detectFaces : String → ℤ
  calcVideoHash : String → ℤ → String
  analyzeVideo : String → Option ℚ × Option String

/-- The per-file feature variables as bound at the end of the cache branch of
the loop body (scanner.py lines 96-119). -/
structure FileFeat where
  path : String
  size : ℤ
  blur_score : Option ℚ
  face_count : Option ℤ
  phash : Option String
  video_duration : Option ℚ
  video_frame_hash : Option String
deriving Repr, DecidableEq

/-- The `else` branch of the cache check (scanner.py lines 102-116): all
applicable features for the file's type are computed fresh; a path that is
neither image nor video gets all-`None` features. -/
def freshFeatures (ex : Extractors) (f : DiskFile) : FileFeat :=
  if isImagePath f.path then
    ⟨f.path, f.size, some (ex.calcBlur f.path), some (ex.detectFaces f.path),
     some (ex.calcPhash f.path), none, none⟩
  else if isVideoPath f.path then
    ⟨f.path, f.size, none, none, none,
     (ex.analyzeVideo f.path).1, (ex.analyzeVideo f.path).2⟩
  else
    ⟨f.path, f.size, none, none, none, none, none⟩

/-- The `video_hash` local of the fresh branch (computed only for video files,
scanner.py line 115; stored in the cache but not used by grouping). -/
def freshVideoHash (ex : Extractors) (f : DiskFile) : Option String :=
  if isImagePath f.path then none
  else if isVideoPath f.path then some (ex.calcVideoHash f.path f.size)
  else none

/-- The `if` branch of the cache check (scanner.py lines 96-101): every feature
is read verbatim from the cached row. -/
def cachedFeatures (c : CacheEntry) (f : DiskFile) : FileFeat :=
  ⟨f.path, f.size, c.blur_score, c.face_count, c.phash, c.video_duration, c.video_frame_hash⟩

/-- scanner.run lines 90-119: per-file feature acquisition.  `get_cache` is
called first; `is_cache_valid` re-fetches the row and checks the fingerprint.
On a valid hit the features come from the row; otherwise they are computed
fresh and the row is upserted.  Any escaping exception (failed connection)
propagates to the per-file `except Exception` handler in the loop. -/
def acquireFeatures (ex : Extractors) (db : DB) (f : DiskFile) :
    Except Unit (FileFeat × DB) :=
  match get_cache db f.path with
  | .error e => .error e
  | .ok cached =>
    match is_cache_valid db f.path f.mtime f.size with
    | .error e => .error e
    | .ok valid =>
      if valid then
        match cached with
        | some c => .ok (cachedFeatures c f, db)
        | none => .error ()
      else
        let feat := freshFeatures ex f
        match upsert_cache db f.path f.mtime f.size feat.blur_score feat.phash
          (freshVideoHash ex f) feat.face_count feat.video_duration feat.video_frame_hash with
        | .error e => .error e
        | .ok db2 => .ok (feat, db2)

/-! ## Aggregation and the scan main loop (src/core/scanner.py lines 45-156) -/

/-- Python truthiness of the optional string feature values: `None` and `""`
are falsy (the `if phash:` / `and video_frame_hash` guards). -/
def truthyStr : Option String → Bool
  | none => false
  | some s => s != ""

/-- Python `int()` applied to a nonnegative-or-negative rational: truncation
toward zero (`Int.div` truncates toward zero). -/
def pyInt (q : ℚ) : ℤ := q.num.tdiv (q.den : ℤ)

/-- The accumulators of scanner.run: the `results` dict entries filled during
the loop plus the two grouping maps (lines 69-78). -/
structure ScanState where
  blur_images : List (String × ℚ × ℤ)
  image_metadata : List (String × ℚ × ℤ × ℤ)
  phash_map : List (String × List (String × ℚ × ℤ × ℤ))
  video_content_map : List ((ℤ × String) × List (String × ℚ))
deriving Repr, DecidableEq

/-- The empty accumulators at loop entry. -/
def initState : ScanState := ⟨[], [], [], []⟩

/-- scanner.run lines 121-140: fold one file's acquired features into the
accumulators.  `face_count or 0` / `blur_score or 0` are modelled by `getD 0`
(for these numeric options Python's `or 0` maps falsy `None`/`0`/`0.0` to `0`,
which agrees with `getD 0`). -/
def stepAggregate (blur_threshold : ℚ) (s : ScanState) (ft : FileFeat) : ScanState :=
  let s1 :=
    match ft.blur_score with
    | none => s
    | some b =>
        let meta := dictSet ft.path (b, ft.face_count.getD 0, ft.size) s.image_metadata
        let blurs :=
          if b < blur_threshold then s.blur_images ++ [(ft.path, b, ft.face_count.getD 0)]
          else s.blur_images
        { s with image_metadata := meta, blur_images := blurs }
  let s2 :=
    if truthyStr ft.phash then
      let pm :=
        dictAppend (ft.phash.getD "")
          (ft.path, ft.blur_score.getD 0, ft.face_count.getD 0, ft.size) s1.phash_map
      { s1 with phash_map := pm }
    else s1
  match ft.video_duration with
  | some d =>
      if truthyStr ft.video_frame_hash then
        let vm := dictAppend (pyInt d, ft.video_frame_hash.getD "") (ft.path, d) s2.video_content_map
        { s2 with video_content_map := vm }
      else s2
  | none => s2

/-- The `results` dict as emitted by `finished.emit` (scanner.run line 156). -/
structure ScanResult where
  scanned_count : ℕ
  blur_images : List (String × ℚ × ℤ)
  similar_groups : List (String × List (String × ℚ × ℤ × ℤ))
  duplicate_videos : List (String × List (String × ℚ))
  image_metadata : List (String × ℚ × ℤ × ℤ)
deriving Repr, DecidableEq

/-- Takes the first 8 characters, modelling the slice `key[1][:8]`. -/
def strTake8 (s : String) : String := ⟨s.data.take 8⟩

/-- The video group label f-string of scanner.run line 151, which renders to
`"duration_" + str(bucket) + "s_" + hash[:8]`. -/
def videoGroupKey (k : ℤ × String) : String :=
  "duration_" ++ toString k.1 ++ "s_" ++ strTake8 k.2

/-- scanner.run lines 145-156: emit only multi-member clusters.  For videos the
emitted dict is keyed by the rendered label, so two distinct content keys with
the same duration bucket and the same first 8 hash characters collide, the
later assignment replacing the earlier group. -/
def finalizeResult (s : ScanState) (processed_count : ℕ) : ScanResult :=
  { scanned_count := processed_count,
    blur_images := s.blur_images,
    similar_groups := s.phash_map.filter (fun e => 1 < e.2.length),
    duplicate_videos :=
      (s.video_content_map.filter (fun e => 1 < e.2.length)).foldl
        (fun acc e => dictSet (videoGroupKey e.1) e.2 acc) [],
    image_metadata := s.image_metadata }

/-- scanner.run lines 82-143, the main loop.  The second argument models the
cooperative stop flag `_is_running`: it is the number of loop-boundary polls
that still see the flag up, so a stop requested after `n` files makes the
`n+1`-st poll observe `False` and `break`.  `processed_count` is incremented
before the `try` block, so a file whose processing raises (failed cache
connection) is counted but contributes no features (the `except Exception`
handler at line 142 logs and moves on). -/
def scanLoop (blur_threshold : ℚ) (ex : Extractors) :
    List DiskFile → ℕ → DB → ScanState → ℕ → ScanState × ℕ × DB
  | [], _, db, s, c => (s, c, db)
  | _ :: _, 0, db, s, c => (s, c, db)
  | f :: fs, n + 1, db, s, c =>
      match acquireFeatures ex db f with
      | .error _ => scanLoop blur_threshold ex fs n db s (c + 1)
      | .ok (ft, db2) => scanLoop blur_threshold ex fs n db2 (stepAggregate blur_threshold s ft) (c + 1)

/-- The features the loop successfully acquires, in processing order (the same
recursion as `scanLoop`, projected to the per-file `FileFeat` values). -/
def scanAcquire (ex : Extractors) : List DiskFile → ℕ → DB → List FileFeat
  | [], _, _ => []
  | _ :: _, 0, _ => []
  | f :: fs, n + 1, db =>
      match acquireFeatures ex db f with
      | .error _ => scanAcquire ex fs n db
      | .ok (ft, db2) => ft :: scanAcquire ex fs n db2

/-- scanner.run end to end: loop then emit (`db.close` releases the handle and
does not change the result). -/
def runScan (blur_threshold : ℚ) (ex : Extractors) (files : List DiskFile)
    (stopAfter : ℕ) (db : DB) : ScanResult :=
  let r := scanLoop blur_threshold ex files stopAfter db initState 0
  finalizeResult r.1 r.2.1

/-! ## Threshold re-grouping (src/results_view.py, ResultsView._recalculate_groups)

The tolerant path re-reads each image from disk: it filters by
`os.path.exists`, re-opens every surviving image with `Image.open` and
re-computes `imagehash.phash`.  The disk state at regroup time is modelled by
`RegroupDisk`; a perceptual hash is a bit list and `imagehash` subtraction is
Hamming distance. -/

/-- Hamming distance of two pHash bit vectors (`hash1 - hash2` in imagehash). -/
def hamming (a b : List Bool) : ℕ := (List.zipWith (fun x y => x != y) a b).count true

/-- The filesystem as `_recalculate_groups` touches it at regroup time:
`pathExists` models `os.path.exists`; `phashNow p` models
`imagehash.phash(Image.open(p))`, with `none` for the `except: pass` case
(unreadable file). -/
structure RegroupDisk where
  pathExists : String → Bool
  phashNow : String → Option (List Bool)

/-- One entry of the `phash_map` dict built at results_view.py lines 895-902:
path, freshly computed hash, and the scan-collected metadata fields. -/
structure HashedImage where
  path : String
  hash : List Bool
  blur : ℚ
  faces : ℤ
  size : ℤ
deriving Repr, DecidableEq

/-- The inner absorption loop (results_view.py lines 918-928): each later path
not yet used whose hash is within `threshold` of the anchor's hash joins the
group and is marked used. -/
def absorbLoop (threshold : ℕ) (anchor : HashedImage) :
    List HashedImage → List String → List HashedImage × List String
  | [], used => ([], used)
  | y :: ys, used =>
      if y.path ∈ used then absorbLoop threshold anchor ys used
      else if hamming anchor.hash y.hash ≤ threshold then
        let r := absorbLoop threshold anchor ys (y.path :: used)
        (y :: r.1, r.2)
      else absorbLoop threshold anchor ys used

/-- The outer greedy loop (results_view.py lines 909-932): iterate paths with
their enumerate index `i`, skip used paths, anchor a new group at the first
unused path, absorb, and emit the group under key `"group_" + str(i)` only if
it has more than one member (members stay marked used either way). -/
def greedyLoop (threshold : ℕ) :
    List HashedImage → List String → ℕ → List (ℕ × List HashedImage)
  | [], _, _ => []
  | x :: xs, used, i =>
      if x.path ∈ used then greedyLoop threshold xs used (i + 1)
      else
        let r := absorbLoop threshold x xs (x.path :: used)
        let grp := x :: r.1
        if 1 < grp.length then (i, grp) :: greedyLoop threshold xs r.2 (i + 1)
        else greedyLoop threshold xs r.2 (i + 1)

/-- The greedy Hamming-distance clustering over the collected images. -/
def greedyClusterImages (threshold : ℕ) (items : List HashedImage) :
    List (ℕ × List HashedImage) :=
  greedyLoop threshold items [] 0

/-- results_view.ResultsView._recalculate_groups (lines 870-937): at threshold
0 the original exact-match grouping from the scan is restored; at a positive
threshold the surviving images are re-hashed from disk and greedily
re-clustered, the group dict being keyed `"group_" + str(i)` with members as
`(path, blur_score, face_count, size)` tuples. -/
def recalculateGroups (disk : RegroupDisk) (scanResults : ScanResult) (threshold : ℕ) :
    List (String × List (String × ℚ × ℤ × ℤ)) :=
  if threshold = 0 then scanResults.similar_groups
  else
    let withExists := scanResults.image_metadata.filter (fun e => disk.pathExists e.1)
    let hashed := withExists.filterMap (fun e =>
      (disk.phashNow e.1).map (fun h => HashedImage.mk e.1 h e.2.1 e.2.2.1 e.2.2.2))
    (greedyClusterImages threshold hashed).map (fun g =>
      ("group_" ++ toString g.1, g.2.map (fun m => (m.path, m.blur, m.faces, m.size))))

/-- Two paths land in one group of the tolerant clustering. -/
def sameGroup (p q : String) (groups : List (ℕ × List HashedImage)) : Prop :=
  ∃ g ∈ groups, p ∈ g.2.map (fun m => m.path) ∧ q ∈ g.2.map (fun m => m.path)

instance (p q : String) (groups : List (ℕ × List HashedImage)) :
    Decidable (sameGroup p q groups) := by
  unfold sameGroup; infer_instance

/-- Two paths land in one emitted duplicate-video group of a scan result. -/
def sameVideoGroup (p q : String) (r : ScanResult) : Prop :=
  ∃ e ∈ r.duplicate_videos, (∃ x ∈ e.2, x.1 = p) ∧ ∃ x ∈ e.2, x.1 = q

instance (p q : String) (r : ScanResult) : Decidable (sameVideoGroup p q r) := by
  unfold sameVideoGroup; infer_instance

/-! ## Best-shot selection (src/core/scanner.py, select_best_shot) -/

/-- The sort key `lambda x: (x[2], x[1], x[3])` of `select_best_shot`:
`(face_count, blur_score, size)` out of a `(path, blur_score, face_count,
size)` tuple. -/
def shotKey (x : String × ℚ × ℤ × ℤ) : ℤ × ℚ × ℤ := (x.2.2.1, x.2.1, x.2.2.2)

/-- Strict lexicographic order on key triples (Python tuple comparison). -/
def keyLt (a b : ℤ × ℚ × ℤ) : Prop :=
  a.1 < b.1 ∨ (a.1 = b.1 ∧ (a.2.1 < b.2.1 ∨ (a.2.1 = b.2.1 ∧ a.2.2 < b.2.2)))

instance (a b : ℤ × ℚ × ℤ) : Decidable (keyLt a b) := by
  unfold keyLt; infer_instance

/-- Stable descending insertion: `x` is placed before the first element whose
key is strictly below `x`'s, hence after all elements with a key at least
`x`'s (preserving original order among equal keys, like Python's stable
`sorted`). -/
def insertShot (x : String × ℚ × ℤ × ℤ) :
    List (String × ℚ × ℤ × ℤ) → List (String × ℚ × ℤ × ℤ)
  | [] => [x]
  | y :: ys => if keyLt (shotKey y) (shotKey x) then x :: y :: ys else y :: insertShot x ys

/-- Models `sorted(group_items, key=lambda x: (x[2], x[1], x[3]),
reverse=True)`: the stable descending sort on the key, realized as a stable
insertion sort (Python's sorted is stable, and the stable descending sort of a
list is unique, so this computes the same list as CPython's Timsort with
`reverse=True`). -/
def sortShots (l : List (String × ℚ × ℤ × ℤ)) : List (String × ℚ × ℤ × ℤ) :=
  l.foldl (fun acc x => insertShot x acc) []

/-- scanner.select_best_shot: empty input yields `""`, otherwise the path of
the first element of the descending sort. -/
def select_best_shot (group_items : List (String × ℚ × ℤ × ℤ)) : String :=
  match sortShots group_items with
  | [] => ""
  | x :: _ => x.1

/-! ## Specification helpers

Derived views of the definitions above, used to state and prove the
properties: per-file grouping-map contributions and a generic
characterization of the dict-of-lists accumulation. -/

/-- The `phash_map` contribution of one file (key and appended tuple) as
performed by the `if phash:` block, or `none` when the guard fails. -/
def imgContrib (ft : FileFeat) : Option (String × (String × ℚ × ℤ × ℤ)) :=
  if truthyStr ft.phash then
    some (ft.phash.getD "", (ft.path, ft.blur_score.getD 0, ft.face_count.getD 0, ft.size))
  else none

/-- The `video_content_map` contribution of one file (key and appended pair)
as performed by the `if video_duration is not None and video_frame_hash:`
block, or `none` when the guard fails. -/
def vidContrib (ft : FileFeat) : Option ((ℤ × String) × (String × ℚ)) :=
  match ft.video_duration with
  | some d =>
      if truthyStr ft.video_frame_hash then
        some ((pyInt d, ft.video_frame_hash.getD ""), (ft.path, d))
      else none
  | none => none

/-- Folding per-item optional contributions into a dict of lists. -/
def mapFold {β κ α : Type} [DecidableEq κ] (g : β → Option (κ × α))
    (init : List (κ × List α)) (l : List β) : List (κ × List α) :=
  l.foldl (fun m b => match g b with | some kv => dictAppend kv.1 kv.2 m | none => m) init

/-- The values the items of `l` contribute under key `k`. -/
def addsOf {β κ α : Type} [DecidableEq κ] (g : β → Option (κ × α)) (k : κ) (l : List β) :
    List α :=
  l.filterMap (fun b => (g b).bind (fun kv => if kv.1 = k then some kv.2 else none))

/-- The head of a list has no strictly key-greater element behind it. -/
def HeadMax : List (String × ℚ × ℤ × ℤ) → Prop
  | [] => True
  | x :: xs => ∀ a ∈ xs, ¬ keyLt (shotKey x) (shotKey a)

/-! ## Concrete fixtures for witnesses and counterexamples -/

/-- A store with no rows and no storage faults. -/
def emptyStore : Store := ⟨fun _ => none, fun _ => false, fun _ => false⟩

/-- A store holding one row for "a.jpg" with fingerprint (mtime 5, size 7). -/
def storeA : Store :=
  ⟨fun p => if p = "a.jpg" then some ⟨5, 7, some 10, some "ff", none, some 2, none, none⟩
            else none,
   fun _ => false, fun _ => false⟩

/-- Image-oriented extractor oracles: every image decodes to blur 50, hash
"aa", one face. -/
def extractA : Extractors :=
  ⟨fun _ => 50, fun _ => "aa", fun _ => 1, fun _ _ => "vh", fun _ => (none, none)⟩

/-- An image extractor whose perceptual-hash computation fails on "bad.jpg"
(returns `""`) and succeeds with hash "aa" elsewhere. -/
def extractBad : Extractors :=
  ⟨fun _ => 50, fun p => if p = "bad.jpg" then "" else "aa", fun _ => 1,
   fun _ _ => "vh", fun _ => (none, none)⟩

/-- Video extractor oracles: four videos whose durations all truncate to 12
seconds; v1/v2 share mid-frame hash "aaaaaaaa00", v3/v4 share "aaaaaaaa11",
and the two hashes agree on their first 8 characters. -/
def extractV : Extractors :=
  ⟨fun _ => 50, fun _ => "", fun _ => 0, fun _ _ => "vh",
   fun p => if p = "v1.mp4" then (some (mkRat 62 5), some "aaaaaaaa00")
            else if p = "v2.mp4" then (some (mkRat 63 5), some "aaaaaaaa00")
            else if p = "v3.mp4" then (some (mkRat 61 5), some "aaaaaaaa11")
            else if p = "v4.mp4" then (some (mkRat 64 5), some "aaaaaaaa11")
            else (none, none)⟩

/-- Sample files. -/
def fileA : DiskFile := ⟨"a.jpg", 5, 7⟩

/-- A second image file. -/
def fileB : DiskFile := ⟨"b.jpg", 6, 8⟩

/-- A failed-hash image file. -/
def fileBad : DiskFile := ⟨"bad.jpg", 4, 9⟩

/-- The four video files, durations 12.4s, 12.6s, 12.2s, 12.8s. -/
def vfiles : List DiskFile :=
  [⟨"v1.mp4", 1, 10⟩, ⟨"v2.mp4", 2, 20⟩, ⟨"v3.mp4", 3, 30⟩, ⟨"v4.mp4", 4, 40⟩]

/-- Just the first two video files. -/
def vfiles2 : List DiskFile := [⟨"v1.mp4", 1, 10⟩, ⟨"v2.mp4", 2, 20⟩]

/-- The features the scan acquires for the first video file. -/
def featV1 : FileFeat :=
  ⟨"v1.mp4", 10, none, none, none, some (mkRat 62 5), some "aaaaaaaa00"⟩

/-- The features the scan acquires for the second video file. -/
def featV2 : FileFeat :=
  ⟨"v2.mp4", 20, none, none, none, some (mkRat 63 5), some "aaaaaaaa00"⟩

/-- Regrouping items realizing the greedy non-monotonicity: pairwise Hamming
distances d(a,b)=2, d(a,c)=3, d(b,c)=1. -/
def itA : HashedImage := ⟨"a", [true, true, false], 0, 0, 0⟩

/-- Second regrouping item. -/
def itB : HashedImage := ⟨"b", [false, false, false], 0, 0, 0⟩

/-- Third regrouping item. -/
def itC : HashedImage := ⟨"c", [false, false, true], 0, 0, 0⟩

/-- A scan result with two images "a" and "b" in its collected metadata (and
no groups), as handed to the re-grouping step. -/
def srAB : ScanResult := ⟨2, [], [], [], [("a", 0, 0, 0), ("b", 0, 0, 0)]⟩

/-- Disk state 1 at regroup time: both files exist and currently hash to the
same bit vector. -/
def diskSame : RegroupDisk := ⟨fun _ => true, fun _ => some [false, false]⟩

/-- Disk state 2 at regroup time: both files exist but "b"'s content (hence
its hash) has changed to differ from "a"'s in 2 bits. -/
def diskChanged : RegroupDisk :=
  ⟨fun _ => true, fun p => if p = "a" then some [false, false] else some [true, true]⟩

/-- Disk state 3 at regroup time: "b" has been deleted. -/
def diskDeleted : RegroupDisk := ⟨fun p => p == "a", fun _ => some [false, false]⟩

/-! ## Dict lemmas -/

theorem dictGet_dictAppend {κ α : Type} [DecidableEq κ] (k k' : κ) (v : α)
    (m : List (κ × List α)) :
    dictGet k (dictAppend k' v m) =
      if k' = k then some ((dictGet k m).getD [] ++ [v]) else dictGet k m := by
  induction m with
  | nil =>
      by_cases h : k' = k <;> simp [dictAppend, dictGet, h]
  | cons e es ih =>
      by_cases he : e.1 = k'
      · by_cases hk : k' = k
        · subst hk
          simp [dictAppend, dictGet, he]
        · have hek : ¬ e.1 = k := by rw [he]; exact hk
          simp [dictAppend, dictGet, he, hek, hk]
      · by_cases hek : e.1 = k
        · have hk : ¬ k' = k := by intro h; exact he (hek.trans h.symm)
          have hk2 : ¬ k = k' := fun hh => hk hh.symm
          simp [dictAppend, dictGet, he, hek, hk, hk2]
        · simp [dictAppend, dictGet, he, hek, ih]

theorem mem_dictSet {κ α : Type} [DecidableEq κ] {k : κ} {v : α} {m : List (κ × α)}
    {e : κ × α} (h : e ∈ dictSet k v m) : e = (k, v) ∨ e ∈ m := by
  induction m with
  | nil => simpa [dictSet] using h
  | cons f fs ih =>
      by_cases hf : f.1 = k
      · simp only [dictSet, hf, if_pos] at h
        rcases List.mem_cons.mp h with h | h
        · exact Or.inl h
        · exact Or.inr (List.mem_cons_of_mem _ h)
      · simp only [dictSet, hf, if_neg, not_false_iff] at h
        rcases List.mem_cons.mp h with h | h
        · exact Or.inr (h ▸ List.mem_cons_self _ _)
        · rcases ih h with h | h
          · exact Or.inl h
          · exact Or.inr (List.mem_cons_of_mem _ h)

theorem dictSet_of_get_none {κ α : Type} [DecidableEq κ] {k : κ} (v : α)
    {m : List (κ × α)} (h : dictGet k m = none) : dictSet k v m = m ++ [(k, v)] := by
  induction m with
  | nil => simp [dictSet]
  | cons f fs ih =>
      by_cases hf : f.1 = k
      · simp [dictGet, hf] at h
      · simp only [dictGet, hf, if_neg, not_false_iff] at h
        simp [dictSet, hf, ih h]

theorem mem_keys_dictAppend {κ α : Type} [DecidableEq κ] {a k : κ} {v : α}
    {m : List (κ × List α)} (h : a ∈ (dictAppend k v m).map Prod.fst) :
    a ∈ m.map Prod.fst ∨ a = k := by
  induction m with
  | nil => simpa [dictAppend] using h
  | cons e es ih =>
      by_cases he : e.1 = k
      · simp only [dictAppend, he, if_pos, List.map_cons, List.mem_cons] at h
        rcases h with h | h
        · exact Or.inr h
        · exact Or.inl (List.mem_cons_of_mem _ h)
      · simp only [dictAppend, he, if_neg, not_false_iff, List.map_cons, List.mem_cons] at h
        rcases h with h | h
        · exact Or.inl (by simp [h])
        · rcases ih h with h | h
          · exact Or.inl (List.mem_cons_of_mem _ h)
          · exact Or.inr h

theorem keysNodup_dictAppend {κ α : Type} [DecidableEq κ] {k : κ} (v : α)
    {m : List (κ × List α)} (h : (m.map Prod.fst).Nodup) :
    ((dictAppend k v m).map Prod.fst).Nodup := by
  induction m with
  | nil => simp [dictAppend]
  | cons e es ih =>
      simp only [List.map_cons, List.nodup_cons] at h
      by_cases he : e.1 = k
      · simpa [dictAppend, he, List.nodup_cons] using ⟨by simpa [he] using h.1, h.2⟩
      · simp only [dictAppend, he, if_neg, not_false_iff, List.map_cons, List.nodup_cons]
        refine ⟨fun hmem => ?_, ih h.2⟩
        rcases mem_keys_dictAppend hmem with hmem | hmem
        · exact h.1 hmem
        · exact he hmem

theorem dictGet_of_mem {κ α : Type} [DecidableEq κ] {m : List (κ × α)} {e : κ × α}
    (hnd : (m.map Prod.fst).Nodup) (he : e ∈ m) : dictGet e.1 m = some e.2 := by
  induction m with
  | nil => cases he
  | cons f fs ih =>
      simp only [List.map_cons, List.nodup_cons] at hnd
      rcases List.mem_cons.mp he with he | he
      · subst he
        simp [dictGet]
      · have hf : ¬ f.1 = e.1 := by
          intro h
          exact hnd.1 (h ▸ List.mem_map_of_mem Prod.fst he)
        simp [dictGet, hf, ih hnd.2 he]

theorem mem_of_dictGet {κ α : Type} [DecidableEq κ] {m : List (κ × α)} {k : κ} {v : α}
    (h : dictGet k m = some v) : (k, v) ∈ m := by
  induction m with
  | nil => simp [dictGet] at h
  | cons f fs ih =>
      by_cases hf : f.1 = k
      · simp only [dictGet, hf, if_pos, Option.some.injEq] at h
        have hfe : f = (k, v) := Prod.ext hf h
        exact hfe ▸ List.mem_cons_self _ _
      · simp only [dictGet, hf, if_neg, not_false_iff] at h
        exact List.mem_cons_of_mem _ (ih h)

theorem mapFold_cons {β κ α : Type} [DecidableEq κ] (g : β → Option (κ × α))
    (b : β) (l : List β) (init : List (κ × List α)) :
    mapFold g init (b :: l) =
      mapFold g (match g b with | some kv => dictAppend kv.1 kv.2 init | none => init) l := by
  simp [mapFold]

theorem addsOf_cons {β κ α : Type} [DecidableEq κ] (g : β → Option (κ × α)) (k : κ)
    (b : β) (l : List β) :
    addsOf g k (b :: l) =
      (match (g b).bind (fun kv => if kv.1 = k then some kv.2 else none) with
        | some v => v :: addsOf g k l
        | none => addsOf g k l) := by
  cases hb : (g b).bind (fun kv => if kv.1 = k then some kv.2 else none) <;>
    simp [addsOf, List.filterMap_cons, hb]

theorem dictGet_mapFold_getD {β κ α : Type} [DecidableEq κ] (g : β → Option (κ × α)) (k : κ) :
    ∀ (l : List β) (init : List (κ × List α)),
      (dictGet k (mapFold g init l)).getD [] = (dictGet k init).getD [] ++ addsOf g k l := by
  intro l
  induction l with
  | nil => intro init; simp [mapFold, addsOf]
  | cons b l ih =>
      intro init
      rw [mapFold_cons, addsOf_cons]
      cases hb : g b with
      | none => simp [ih init]
      | some kv =>
          by_cases hk : kv.1 = k
          · rw [ih (dictAppend kv.1 kv.2 init), dictGet_dictAppend k kv.1 kv.2 init, if_pos hk]
            simp [hk]
          · rw [ih (dictAppend kv.1 kv.2 init), dictGet_dictAppend k kv.1 kv.2 init, if_neg hk]
            simp [hk]

theorem dictGet_mapFold_none {β κ α : Type} [DecidableEq κ] (g : β → Option (κ × α)) (k : κ) :
    ∀ (l : List β) (init : List (κ × List α)),
      (dictGet k (mapFold g init l) = none ↔ dictGet k init = none ∧ addsOf g k l = []) := by
  intro l
  induction l with
  | nil => intro init; simp [mapFold, addsOf]
  | cons b l ih =>
      intro init
      rw [mapFold_cons, addsOf_cons]
      cases hb : g b with
      | none => simpa using ih init
      | some kv =>
          by_cases hk : kv.1 = k
          · rw [ih (dictAppend kv.1 kv.2 init), dictGet_dictAppend k kv.1 kv.2 init, if_pos hk]
            simp [hk]
          · rw [ih (dictAppend kv.1 kv.2 init), dictGet_dictAppend k kv.1 kv.2 init, if_neg hk]
            simp [hk]

theorem keysNodup_mapFold {β κ α : Type} [DecidableEq κ] (g : β → Option (κ × α)) :
    ∀ (l : List β) (init : List (κ × List α)),
      (init.map Prod.fst).Nodup → ((mapFold g init l).map Prod.fst).Nodup := by
  intro l
  induction l with
  | nil => intro init h; simpa [mapFold] using h
  | cons b l ih =>
      intro init h
      rw [mapFold_cons]
      cases hb : g b with
      | none => exact ih init h
      | some kv => exact ih _ (keysNodup_dictAppend kv.2 h)

theorem mem_addsOf {β κ α : Type} [DecidableEq κ] {g : β → Option (κ × α)} {k : κ}
    {l : List β} {v : α} (h : v ∈ addsOf g k l) : ∃ b ∈ l, g b = some (k, v) := by
  rcases List.mem_filterMap.mp h with ⟨b, hb, hv⟩
  cases hg : g b with
  | none => rw [hg] at hv; simp at hv
  | some kv =>
      rw [hg] at hv
      by_cases hk : kv.1 = k
      · simp [hk] at hv
        have hkv : kv = (k, v) := Prod.ext hk hv
        exact ⟨b, hb, by rw [hg, hkv]⟩
      · simp [hk] at hv

theorem addsOf_mem {β κ α : Type} [DecidableEq κ] {g : β → Option (κ × α)} {k : κ}
    {l : List β} {v : α} {b : β} (hb : b ∈ l) (hg : g b = some (k, v)) :
    v ∈ addsOf g k l := by
  refine List.mem_filterMap.mpr ⟨b, hb, ?_⟩
  rw [hg]
  simp

theorem mem_foldl_dictSet {κ' κ α : Type} [DecidableEq κ'] (lbl : κ → κ') :
    ∀ (entries : List (κ × List α)) (acc : List (κ' × List α)) (e : κ' × List α),
      e ∈ entries.foldl (fun a en => dictSet (lbl en.1) en.2 a) acc →
      (∃ en ∈ entries, e.2 = en.2) ∨ e ∈ acc := by
  intro entries
  induction entries with
  | nil => intro acc e h; exact Or.inr h
  | cons en ens ih =>
      intro acc e h
      simp only [List.foldl_cons] at h
      rcases ih _ e h with h | h
      · rcases h with ⟨en', hen', he⟩
        exact Or.inl ⟨en', List.mem_cons_of_mem _ hen', he⟩
      · rcases mem_dictSet h with h | h
        · exact Or.inl ⟨en, List.mem_cons_self _ _, by rw [h]⟩
        · exact Or.inr h

theorem foldl_dictSet_fresh {κ' κ α : Type} [DecidableEq κ'] (lbl : κ → κ') :
    ∀ (entries : List (κ × List α)) (acc : List (κ' × List α)),
      (∀ en ∈ entries, dictGet (lbl en.1) acc = none) →
      (entries.map (fun en => lbl en.1)).Nodup →
      entries.foldl (fun a en => dictSet (lbl en.1) en.2 a) acc =
        acc ++ entries.map (fun en => (lbl en.1, en.2)) := by
  intro entries
  induction entries with
  | nil => intro acc _ _; simp
  | cons en ens ih =>
      intro acc hfresh hnd
      simp only [List.map_cons, List.nodup_cons] at hnd
      simp only [List.foldl_cons]
      rw [dictSet_of_get_none en.2 (hfresh en (List.mem_cons_self _ _))]
      rw [ih (acc ++ [(lbl en.1, en.2)]) ?_ hnd.2]
      · simp
      · intro en' hen'
        have h1 : dictGet (lbl en'.1) acc = none :=
          hfresh en' (List.mem_cons_of_mem _ hen')
        have h2 : ¬ lbl en.1 = lbl en'.1 := by
          intro hh
          exact hnd.1 (hh ▸ List.mem_map_of_mem (fun en => lbl en.1) hen')
        clear ih hfresh
        induction acc with
        | nil => simp [dictGet, h2]
        | cons f fs ihacc =>
            by_cases hf : f.1 = lbl en'.1
            · simp [dictGet, hf] at h1
            · simp only [dictGet, hf, if_neg, not_false_iff, List.cons_append] at h1 ⊢
              exact ihacc h1

/-! ## Scan-loop structure lemmas -/

theorem stepAggregate_phash_map (blur_threshold : ℚ) (s : ScanState) (ft : FileFeat) :
    (stepAggregate blur_threshold s ft).phash_map =
      (match imgContrib ft with
        | some kv => dictAppend kv.1 kv.2 s.phash_map
        | none => s.phash_map) := by
  unfold stepAggregate imgContrib
  cases hb : ft.blur_score <;> cases hv : ft.video_duration <;>
    by_cases hp : truthyStr ft.phash <;>
      by_cases hf : truthyStr ft.video_frame_hash <;>
        simp [hp, hf]

theorem stepAggregate_video_map (blur_threshold : ℚ) (s : ScanState) (ft : FileFeat) :
    (stepAggregate blur_threshold s ft).video_content_map =
      (match vidContrib ft with
        | some kv => dictAppend kv.1 kv.2 s.video_content_map
        | none => s.video_content_map) := by
  unfold stepAggregate vidContrib
  cases hb : ft.blur_score <;> cases hv : ft.video_duration <;>
    by_cases hp : truthyStr ft.phash <;>
      by_cases hf : truthyStr ft.video_frame_hash <;>
        simp [hp, hf]

theorem foldl_stepAggregate_phash_map (blur_threshold : ℚ) :
    ∀ (fts : List FileFeat) (s : ScanState),
      (fts.foldl (stepAggregate blur_threshold) s).phash_map =
        mapFold imgContrib s.phash_map fts := by
  intro fts
  induction fts with
  | nil => intro s; simp [mapFold]
  | cons ft fts ih =>
      intro s
      rw [List.foldl_cons, ih, mapFold_cons, stepAggregate_phash_map]
      cases imgContrib ft <;> rfl

theorem foldl_stepAggregate_video_map (blur_threshold : ℚ) :
    ∀ (fts : List FileFeat) (s : ScanState),
      (fts.foldl (stepAggregate blur_threshold) s).video_content_map =
        mapFold vidContrib s.video_content_map fts := by
  intro fts
  induction fts with
  | nil => intro s; simp [mapFold]
  | cons ft fts ih =>
      intro s
      rw [List.foldl_cons, ih, mapFold_cons, stepAggregate_video_map]
      cases vidContrib ft <;> rfl

theorem scanLoop_state (blur_threshold : ℚ) (ex : Extractors) :
    ∀ (fs : List DiskFile) (n : ℕ) (db : DB) (s : ScanState) (c : ℕ),
      (scanLoop blur_threshold ex fs n db s c).1 =
        (scanAcquire ex fs n db).foldl (stepAggregate blur_threshold) s := by
  intro fs
  induction fs with
  | nil => intro n db s c; simp [scanLoop, scanAcquire]
  | cons f fs ih =>
      intro n db s c
      cases n with
      | zero => simp [scanLoop, scanAcquire]
      | succ n =>
          cases hacq : acquireFeatures ex db f with
          | error e => simp [scanLoop, scanAcquire, hacq, ih]
          | ok p => simp [scanLoop, scanAcquire, hacq, ih]

theorem scanLoop_count (blur_threshold : ℚ) (ex : Extractors) :
    ∀ (fs : List DiskFile) (n : ℕ) (db : DB) (s : ScanState) (c : ℕ),
      (scanLoop blur_threshold ex fs n db s c).2.1 = c + min n fs.length := by
  intro fs
  induction fs with
  | nil => intro n db s c; simp [scanLoop]
  | cons f fs ih =>
      intro n db s c
      cases n with
      | zero => simp [scanLoop]
      | succ n =>
          cases hacq : acquireFeatures ex db f with
          | error e =>
              simp only [scanLoop, hacq, ih, List.length_cons]
              omega
          | ok p =>
              simp only [scanLoop, hacq, ih, List.length_cons]
              omega

theorem scanLoop_take (blur_threshold : ℚ) (ex : Extractors) :
    ∀ (fs : List DiskFile) (n : ℕ) (db : DB) (s : ScanState) (c : ℕ), n ≤ fs.length →
      scanLoop blur_threshold ex fs n db s c =
        scanLoop blur_threshold ex (fs.take n) (fs.take n).length db s c := by
  intro fs
  induction fs with
  | nil =>
      intro n db s c hn
      have hn0 : n = 0 := Nat.le_zero.mp hn
      subst hn0
      simp
  | cons f fs ih =>
      intro n db s c hn
      cases n with
      | zero => simp [scanLoop]
      | succ n =>
          simp only [List.take_succ_cons, List.length_cons]
          cases hacq : acquireFeatures ex db f with
          | error e =>
              simp only [scanLoop, hacq]
              exact ih n _ s (c + 1) (by simpa using hn)
          | ok p =>
              simp only [scanLoop, hacq]
              exact ih n _ _ (c + 1) (by simpa using hn)

theorem runScan_eq (blur_threshold : ℚ) (ex : Extractors) (files : List DiskFile)
    (n : ℕ) (db : DB) :
    runScan blur_threshold ex files n db =
      finalizeResult ((scanAcquire ex files n db).foldl (stepAggregate blur_threshold) initState)
        (min n files.length) := by
  unfold runScan
  dsimp only
  rw [scanLoop_state, scanLoop_count]
  simp

/-! ## Claim C3: cache-validity predicate and full recomputation on invalidation -/

/-- C3: `is_cache_valid` returns true iff a row for the path exists, the
stored and current modification times differ by strictly less than 0.001, and
the stored size equals the current size; and whenever it returns false the
per-file acquisition yields exactly the freshly computed features
(`freshFeatures` reads nothing from the store), so no stale field of the old
row is reused. -/
theorem C3_cache_validity (st : Store) (ex : Extractors) (f : DiskFile)
    (hf : st.readFault f.path = false) :
    (is_cache_valid (some st) f.path f.mtime f.size = .ok true ↔
      ∃ c, st.entries f.path = some c ∧
        |c.last_modified - f.mtime| < 1/1000 ∧ c.file_size = f.size)
    ∧ (is_cache_valid (some st) f.path f.mtime f.size = .ok false →
        ∀ ft db2, acquireFeatures ex (some st) f = .ok (ft, db2) → ft = freshFeatures ex f) := by
  have hg : get_cache (some st) f.path = .ok (st.entries f.path) := by
    simp [get_cache, hf]
  constructor
  · unfold is_cache_valid
    rw [hg]
    cases hc : st.entries f.path with
    | none => simp
    | some c => simp [decide_eq_true_iff]
  · intro hv ft db2 hacq
    unfold acquireFeatures at hacq
    rw [hg, hv] at hacq
    simp only [if_neg Bool.false_ne_true] at hacq
    by_cases hw : st.writeFault f.path = true
    · simp [upsert_cache, hw] at hacq
      exact hacq.1.symm
    · simp [upsert_cache, hw] at hacq
      exact hacq.1.symm

/-- C3 witness: a store whose row for "a.jpg" matches the current stat, with
no read fault. -/
theorem C3_cache_validity_witness :
    storeA.readFault "a.jpg" = false ∧
    ((is_cache_valid (some storeA) "a.jpg" 5 7 = .ok true ↔
        ∃ c, storeA.entries "a.jpg" = some c ∧
          |c.last_modified - (5 : ℚ)| < 1/1000 ∧ c.file_size = 7)
      ∧ (is_cache_valid (some storeA) "a.jpg" 5 7 = .ok false →
          ∀ ft db2, acquireFeatures extractA (some storeA) fileA = .ok (ft, db2) →
            ft = freshFeatures extractA fileA)) :=
  ⟨rfl, C3_cache_validity storeA extractA fileA rfl⟩

/-! ## Claim C4: cache storage failure policy -/

/-- C4: the claim's final clause fails on the code.  With an unopenable store
(`db = none`) the scan does not crash and still counts the file, but
`get_cache` raises `AttributeError` from the `None` cursor (not caught by its
`except sqlite3.Error` clause), the per-file handler skips the file, and no
features are computed or contributed: the emitted result is empty except for
`scanned_count`.  The same single-file run with an openable empty store is a
genuine miss and contributes the freshly computed features. -/
theorem C4_cache_open_failure :
    acquireFeatures extractA none fileA = .error () ∧
    runScan 100 extractA [fileA] 1 none = ⟨1, [], [], [], []⟩ ∧
    runScan 100 extractA [fileA] 1 (some emptyStore) =
      ⟨1, [("a.jpg", 50, 1)], [], [], [("a.jpg", 50, 1, 7)]⟩ := by
  refine ⟨rfl, ?_, ?_⟩ <;> decide

/-! ## Claim C8: no singleton groups -/

theorem twoLe_of_mem_similar {s : ScanState} {c : ℕ} {e : String × List (String × ℚ × ℤ × ℤ)}
    (he : e ∈ (finalizeResult s c).similar_groups) : 2 ≤ e.2.length := by
  have h := (List.mem_filter.mp he).2
  simp only [decide_eq_true_eq] at h
  omega

theorem twoLe_of_mem_videos {s : ScanState} {c : ℕ} {e : String × List (String × ℚ)}
    (he : e ∈ (finalizeResult s c).duplicate_videos) : 2 ≤ e.2.length := by
  rcases mem_foldl_dictSet videoGroupKey _ [] e he with ⟨en, hen, h2⟩ | h
  · have h := (List.mem_filter.mp hen).2
    simp only [decide_eq_true_eq] at h
    rw [h2]
    omega
  · cases h

/-- C8: in every emitted scan result, every entry of `similar_groups` and of
`duplicate_videos` has at least 2 members. -/
theorem C8_no_singleton_groups (blur_threshold : ℚ) (ex : Extractors) (files : List DiskFile)
    (n : ℕ) (db : DB) :
    (∀ e ∈ (runScan blur_threshold ex files n db).similar_groups, 2 ≤ e.2.length) ∧
    (∀ e ∈ (runScan blur_threshold ex files n db).duplicate_videos, 2 ≤ e.2.length) := by
  unfold runScan
  dsimp only
  exact ⟨fun e he => twoLe_of_mem_similar he, fun e he => twoLe_of_mem_videos he⟩

/-- C8 witness: a run over two identically hashed images produces a 2-member
group, for which the theorem's membership hypothesis is discharged
concretely. -/
theorem C8_no_singleton_groups_witness :
    (("aa", [("a.jpg", (50 : ℚ), (1 : ℤ), (7 : ℤ)), ("b.jpg", 50, 1, 8)]) ∈
        (runScan 100 extractA [fileA, fileB] 2 (some emptyStore)).similar_groups) ∧
    2 ≤ [("a.jpg", (50 : ℚ), (1 : ℤ), (7 : ℤ)), ("b.jpg", 50, 1, 8)].length :=
  ⟨by decide,
   (C8_no_singleton_groups 100 extractA [fileA, fileB] 2 (some emptyStore)).1
     ("aa", [("a.jpg", (50 : ℚ), (1 : ℤ), (7 : ℤ)), ("b.jpg", 50, 1, 8)]) (by decide)⟩

/-! ## Claim C9: cooperative cancellation -/

/-- C9: a stop observed after `N` of the enumerated files yields exactly the
result of a full run over the first `N` files, with `scanned_count = N`: the
flag is only consulted at file boundaries, the loop stops enumerating, and the
single emitted result is determined solely by the first `N` files'
features. -/
theorem C9_cancellation (blur_threshold : ℚ) (ex : Extractors) (files : List DiskFile)
    (N : ℕ) (db : DB) (h : N ≤ files.length) :
    runScan blur_threshold ex files N db =
      runScan blur_threshold ex (files.take N) (files.take N).length db ∧
    (runScan blur_threshold ex files N db).scanned_count = N := by
  constructor
  · unfold runScan
    dsimp only
    rw [scanLoop_take blur_threshold ex files N db initState 0 h]
  · unfold runScan
    dsimp only
    simp [finalizeResult, scanLoop_count, Nat.min_eq_left h]

/-- C9 witness: stopping after 1 of 2 files. -/
theorem C9_cancellation_witness :
    1 ≤ [fileA, fileB].length ∧
    (runScan 100 extractA [fileA, fileB] 1 (some emptyStore) =
        runScan 100 extractA ([fileA, fileB].take 1) ([fileA, fileB].take 1).length
          (some emptyStore) ∧
      (runScan 100 extractA [fileA, fileB] 1 (some emptyStore)).scanned_count = 1) :=
  ⟨by decide, C9_cancellation 100 extractA [fileA, fileB] 1 (some emptyStore) (by decide)⟩

/-! ## Order lemmas for the best-shot key -/

theorem keyLt_trans {a b c : ℤ × ℚ × ℤ} (h1 : keyLt a b) (h2 : keyLt b c) : keyLt a c := by
  unfold keyLt at *
  rcases h1 with h1 | ⟨e1, h1⟩ <;> rcases h2 with h2 | ⟨e2, h2⟩
  · exact Or.inl (lt_trans h1 h2)
  · exact Or.inl (by rw [← e2]; exact h1)
  · exact Or.inl (by rw [e1]; exact h2)
  · refine Or.inr ⟨e1.trans e2, ?_⟩
    rcases h1 with h1 | ⟨f1, h1⟩ <;> rcases h2 with h2 | ⟨f2, h2⟩
    · exact Or.inl (lt_trans h1 h2)
    · exact Or.inl (by rw [← f2]; exact h1)
    · exact Or.inl (by rw [f1]; exact h2)
    · exact Or.inr ⟨f1.trans f2, lt_trans h1 h2⟩

theorem keyLt_asymm {a b : ℤ × ℚ × ℤ} (h1 : keyLt a b) : ¬ keyLt b a := by
  intro h2
  unfold keyLt at h1 h2
  rcases h1 with h1 | ⟨e1, h1⟩ <;> rcases h2 with h2 | ⟨e2, h2⟩
  · exact lt_asymm h1 h2
  · rw [e2] at h1; exact lt_irrefl _ h1
  · rw [e1] at h2; exact lt_irrefl _ h2
  · rcases h1 with h1 | ⟨f1, h1⟩ <;> rcases h2 with h2 | ⟨f2, h2⟩
    · exact lt_asymm h1 h2
    · rw [f2] at h1; exact lt_irrefl _ h1
    · rw [f1] at h2; exact lt_irrefl _ h2
    · exact lt_asymm h1 h2

theorem keyLt_connex {a b : ℤ × ℚ × ℤ} (hab : ¬ keyLt a b) (hba : ¬ keyLt b a) : a = b := by
  unfold keyLt at hab hba
  rcases lt_trichotomy a.1 b.1 with h | h | h
  · exact absurd (Or.inl h) hab
  · rcases lt_trichotomy a.2.1 b.2.1 with h2 | h2 | h2
    · exact absurd (Or.inr ⟨h, Or.inl h2⟩) hab
    · rcases lt_trichotomy a.2.2 b.2.2 with h3 | h3 | h3
      · exact absurd (Or.inr ⟨h, Or.inr ⟨h2, h3⟩⟩) hab
      · exact Prod.ext h (Prod.ext h2 h3)
      · exact absurd (Or.inr ⟨h.symm, Or.inr ⟨h2.symm, h3⟩⟩) hba
    · exact absurd (Or.inr ⟨h.symm, Or.inl h2⟩) hba
  · exact absurd (Or.inl h) hba

/-! ## Sorting lemmas for select_best_shot -/

theorem mem_insertShot {x a : String × ℚ × ℤ × ℤ} {l : List (String × ℚ × ℤ × ℤ)} :
    a ∈ insertShot x l ↔ a = x ∨ a ∈ l := by
  induction l with
  | nil => simp [insertShot]
  | cons y ys ih =>
      by_cases h : keyLt (shotKey y) (shotKey x)
      · simp [insertShot, h]
      · simp only [insertShot, h, if_neg, not_false_iff, List.mem_cons, ih]
        tauto

theorem mem_sortShots_aux :
    ∀ (l acc : List (String × ℚ × ℤ × ℤ)) (a : String × ℚ × ℤ × ℤ),
      a ∈ l.foldl (fun acc x => insertShot x acc) acc ↔ a ∈ acc ∨ a ∈ l := by
  intro l
  induction l with
  | nil => simp
  | cons x xs ih =>
      intro acc a
      rw [List.foldl_cons, ih, mem_insertShot]
      simp only [List.mem_cons]
      tauto

theorem mem_sortShots {l : List (String × ℚ × ℤ × ℤ)} {a : String × ℚ × ℤ × ℤ} :
    a ∈ sortShots l ↔ a ∈ l := by
  unfold sortShots
  rw [mem_sortShots_aux]
  simp

theorem headMax_insertShot {x : String × ℚ × ℤ × ℤ} {l : List (String × ℚ × ℤ × ℤ)}
    (h : HeadMax l) : HeadMax (insertShot x l) := by
  cases l with
  | nil => intro a ha; cases ha
  | cons y ys =>
      by_cases hlt : keyLt (shotKey y) (shotKey x)
      · show HeadMax (if keyLt (shotKey y) (shotKey x) then _ else _)
        rw [if_pos hlt]
        intro a ha
        rcases List.mem_cons.mp ha with rfl | ha
        · exact keyLt_asymm hlt
        · exact fun hxa => h a ha (keyLt_trans hlt hxa)
      · show HeadMax (if keyLt (shotKey y) (shotKey x) then _ else _)
        rw [if_neg hlt]
        intro a ha
        rcases mem_insertShot.mp ha with rfl | ha
        · exact hlt
        · exact h a ha

theorem headMax_sortShots_aux :
    ∀ (l acc : List (String × ℚ × ℤ × ℤ)), HeadMax acc →
      HeadMax (l.foldl (fun acc x => insertShot x acc) acc) := by
  intro l
  induction l with
  | nil => intro acc h; simpa using h
  | cons x xs ih =>
      intro acc h
      rw [List.foldl_cons]
      exact ih _ (headMax_insertShot h)

theorem headMax_sortShots (l : List (String × ℚ × ℤ × ℤ)) : HeadMax (sortShots l) :=
  headMax_sortShots_aux l [] trivial

theorem select_mem_and_max (l : List (String × ℚ × ℤ × ℤ)) (h : l ≠ []) :
    ∃ m ∈ l, m.1 = select_best_shot l ∧ ∀ x ∈ l, ¬ keyLt (shotKey m) (shotKey x) := by
  obtain ⟨hd, tl, hsort⟩ : ∃ hd tl, sortShots l = hd :: tl := by
    cases hs : sortShots l with
    | nil =>
        obtain ⟨a, ha⟩ := List.exists_mem_of_ne_nil l h
        exact absurd (hs ▸ mem_sortShots.mpr ha) (List.not_mem_nil a)
    | cons hd tl => exact ⟨hd, tl, rfl⟩
  refine ⟨hd, mem_sortShots.mp (hsort ▸ List.mem_cons_self hd tl), ?_, ?_⟩
  · unfold select_best_shot
    rw [hsort]
  · intro x hx
    have hx2 : x ∈ hd :: tl := hsort ▸ mem_sortShots.mpr hx
    rcases List.mem_cons.mp hx2 with rfl | hx2
    · exact fun hlt => keyLt_asymm hlt hlt
    · have hm := headMax_sortShots l
      rw [hsort] at hm
      exact hm x hx2

theorem select_eq_of_unique_max (l : List (String × ℚ × ℤ × ℤ)) (m : String × ℚ × ℤ × ℤ)
    (hm : m ∈ l) (hu : ∀ x ∈ l, x ≠ m → keyLt (shotKey x) (shotKey m)) :
    select_best_shot l = m.1 := by
  obtain ⟨m2, hm2l, hsel, hmax⟩ := select_mem_and_max l (List.ne_nil_of_mem hm)
  by_cases he : m2 = m
  · rw [← hsel, he]
  · exact absurd (hu m2 hm2l he) (hmax m hm)

/-! ## Claim C5: best-shot selection -/

/-- C5: for nonempty input, `select_best_shot` returns the path of a member
whose `(face_count, blur_score, size_bytes)` triple is lexicographically
maximal (no member's triple is strictly greater); and on the spec's concrete
input it returns "b". -/
theorem C5_best_shot_selection (l : List (String × ℚ × ℤ × ℤ)) (h : l ≠ []) :
    (∃ m ∈ l, m.1 = select_best_shot l ∧ ∀ x ∈ l, ¬ keyLt (shotKey m) (shotKey x)) ∧
    select_best_shot [("a", 50, 0, 100), ("b", 90, 1, 50), ("c", 90, 0, 200)] = "b" :=
  ⟨select_mem_and_max l h, by decide⟩

/-- C5 witness: the spec's own three-member group. -/
theorem C5_best_shot_selection_witness :
    ([(("a" : String), (50 : ℚ), (0 : ℤ), (100 : ℤ)), ("b", 90, 1, 50), ("c", 90, 0, 200)] ≠
        ([] : List (String × ℚ × ℤ × ℤ))) ∧
    ((∃ m ∈ [(("a" : String), (50 : ℚ), (0 : ℤ), (100 : ℤ)), ("b", 90, 1, 50), ("c", 90, 0, 200)],
        m.1 = select_best_shot [("a", 50, 0, 100), ("b", 90, 1, 50), ("c", 90, 0, 200)] ∧
        ∀ x ∈ [(("a" : String), (50 : ℚ), (0 : ℤ), (100 : ℤ)), ("b", 90, 1, 50), ("c", 90, 0, 200)],
          ¬ keyLt (shotKey m) (shotKey x)) ∧
      select_best_shot [("a", 50, 0, 100), ("b", 90, 1, 50), ("c", 90, 0, 200)] = "b") :=
  ⟨by decide,
   C5_best_shot_selection [("a", 50, 0, 100), ("b", 90, 1, 50), ("c", 90, 0, 200)] (by decide)⟩

/-! ## Claim C6: permutation invariance of the selector -/

/-- C6 counterexample: two lists that are permutations of each other (the same
multiset of tuples), on which the selector returns different paths, because
ties on the full key triple are broken by input order. -/
theorem C6_perm_counterexample :
    List.Perm [(("a" : String), (1 : ℚ), (1 : ℤ), (1 : ℤ)), ("b", 1, 1, 1)]
      [("b", 1, 1, 1), ("a", 1, 1, 1)] ∧
    select_best_shot [(("a" : String), (1 : ℚ), (1 : ℤ), (1 : ℤ)), ("b", 1, 1, 1)] ≠
      select_best_shot [("b", 1, 1, 1), ("a", 1, 1, 1)] := by
  exact ⟨by decide, by decide⟩

/-- C6 amended: the selector is permutation-invariant whenever some member's
`(face_count, blur_score, size_bytes)` triple strictly exceeds every other
member's (both orders then return that member's path); with ties on the full
triple the choice depends on input order. -/
theorem C6_perm_invariance_unique_max (l₁ l₂ : List (String × ℚ × ℤ × ℤ))
    (m : String × ℚ × ℤ × ℤ) (hperm : l₁.Perm l₂) (hm : m ∈ l₁)
    (hu : ∀ x ∈ l₁, x ≠ m → keyLt (shotKey x) (shotKey m)) :
    select_best_shot l₁ = select_best_shot l₂ := by
  rw [select_eq_of_unique_max l₁ m hm hu,
      select_eq_of_unique_max l₂ m (hperm.mem_iff.mp hm)
        (fun x hx hne => hu x (hperm.mem_iff.mpr hx) hne)]

/-- C6 witness: a strict-maximum group in two orders. -/
theorem C6_perm_invariance_unique_max_witness :
    List.Perm [(("a" : String), (50 : ℚ), (0 : ℤ), (100 : ℤ)), ("b", 90, 1, 50)]
      [(("b" : String), (90 : ℚ), (1 : ℤ), (50 : ℤ)), ("a", 50, 0, 100)] ∧
    (("b" : String), (90 : ℚ), (1 : ℤ), (50 : ℤ)) ∈
      [(("a" : String), (50 : ℚ), (0 : ℤ), (100 : ℤ)), ("b", 90, 1, 50)] ∧
    select_best_shot [(("a" : String), (50 : ℚ), (0 : ℤ), (100 : ℤ)), ("b", 90, 1, 50)] =
      select_best_shot [(("b" : String), (90 : ℚ), (1 : ℤ), (50 : ℤ)), ("a", 50, 0, 100)] :=
  ⟨by decide, by decide,
   C6_perm_invariance_unique_max _ _ (("b" : String), (90 : ℚ), (1 : ℤ), (50 : ℤ))
     (by decide) (by decide) (by decide)⟩

/-! ## Claim C1: the tolerant re-grouping re-reads the filesystem -/

/-- C1: the claim fails on the code (and results_view.py line 881's own
comment records that fetching the hash from the cache is what is needed,
the present code being a stopgap).  With the scan-collected metadata held
fixed, the tolerant regrouping gives different groupings under different
current disk states: if "b"'s bytes changed after the scan it leaves "a"'s
group, and if "b" was deleted it is dropped entirely — so the regrouping is a
function of the live filesystem (`Image.open` + `imagehash.phash`,
`os.path.exists`), not of the already-collected per-image metadata alone. -/
theorem C1_recluster_reads_disk :
    recalculateGroups diskSame srAB 1 = [("group_0", [("a", 0, 0, 0), ("b", 0, 0, 0)])] ∧
    recalculateGroups diskChanged srAB 1 = [] ∧
    recalculateGroups diskDeleted srAB 1 = [] ∧
    recalculateGroups diskSame srAB 1 ≠ recalculateGroups diskChanged srAB 1 :=
  ⟨by decide, by decide, by decide, by decide⟩

/-! ## Claim C2: monotonicity of the tolerant clustering -/

/-- C2 counterexample: with hashes at pairwise Hamming distances d(a,b)=2,
d(a,c)=3, d(b,c)=1, the greedy clustering groups b with c at threshold 1, but
at threshold 2 the anchor a absorbs b first, splitting the pair. -/
theorem C2_monotonicity_counterexample :
    sameGroup "b" "c" (greedyClusterImages 1 [itA, itB, itC]) ∧
    ¬ sameGroup "b" "c" (greedyClusterImages 2 [itA, itB, itC]) :=
  ⟨by decide, by decide⟩

theorem absorb_used_mono (threshold : ℕ) (x : HashedImage) :
    ∀ (ys : List HashedImage) (used : List String),
      used ⊆ (absorbLoop threshold x ys used).2 := by
  intro ys
  induction ys with
  | nil => intro used; exact fun a ha => ha
  | cons y ys ih =>
      intro used
      by_cases hy : y.path ∈ used
      · simp only [absorbLoop, if_pos hy]
        exact ih used
      · by_cases hd : hamming x.hash y.hash ≤ threshold
        · simp only [absorbLoop, if_neg hy, if_pos hd]
          exact fun a ha => ih (y.path :: used) (List.mem_cons_of_mem _ ha)
        · simp only [absorbLoop, if_neg hy, if_neg hd]
          exact ih used

theorem absorb_mem (threshold : ℕ) (x : HashedImage) :
    ∀ (ys : List HashedImage) (used : List String) (m : HashedImage),
      m ∈ (absorbLoop threshold x ys used).1 → m ∈ ys ∧ m.path ∉ used := by
  intro ys
  induction ys with
  | nil => intro used m hm; cases hm
  | cons y ys ih =>
      intro used m hm
      by_cases hy : y.path ∈ used
      · simp only [absorbLoop, if_pos hy] at hm
        obtain ⟨h1, h2⟩ := ih used m hm
        exact ⟨List.mem_cons_of_mem _ h1, h2⟩
      · by_cases hd : hamming x.hash y.hash ≤ threshold
        · simp only [absorbLoop, if_neg hy, if_pos hd] at hm
          rcases List.mem_cons.mp hm with rfl | hm
          · exact ⟨List.mem_cons_self _ _, hy⟩
          · obtain ⟨h1, h2⟩ := ih (y.path :: used) m hm
            exact ⟨List.mem_cons_of_mem _ h1, fun hc => h2 (List.mem_cons_of_mem _ hc)⟩
        · simp only [absorbLoop, if_neg hy, if_neg hd] at hm
          obtain ⟨h1, h2⟩ := ih used m hm
          exact ⟨List.mem_cons_of_mem _ h1, h2⟩

theorem absorb_fresh (threshold : ℕ) (x : HashedImage) :
    ∀ (ys : List HashedImage) (used : List String),
      (∀ y ∈ ys, y.path ∉ used) → (ys.map (fun m => m.path)).Nodup →
      (absorbLoop threshold x ys used).1 =
        ys.filter (fun y => decide (hamming x.hash y.hash ≤ threshold)) := by
  intro ys
  induction ys with
  | nil => intro used _ _; rfl
  | cons y ys ih =>
      intro used hfresh hnd
      simp only [List.map_cons, List.nodup_cons] at hnd
      have hy : y.path ∉ used := hfresh y (List.mem_cons_self _ _)
      by_cases hd : hamming x.hash y.hash ≤ threshold
      · simp only [absorbLoop, if_neg hy, if_pos hd, List.filter_cons, decide_eq_true hd,
          if_pos]
        have hfresh2 : ∀ z ∈ ys, z.path ∉ y.path :: used := by
          intro z hz
          simp only [List.mem_cons, not_or]
          refine ⟨fun he => hnd.1 (he ▸ List.mem_map_of_mem _ hz), hfresh z (List.mem_cons_of_mem _ hz)⟩
        rw [ih (y.path :: used) hfresh2 hnd.2]
      · simp only [absorbLoop, if_neg hy, if_neg hd, List.filter_cons]
        rw [ih used (fun z hz => hfresh z (List.mem_cons_of_mem _ hz)) hnd.2]
        simp [hd]

theorem greedy_mem (threshold : ℕ) :
    ∀ (ys : List HashedImage) (used : List String) (i : ℕ),
      ∀ g ∈ greedyLoop threshold ys used i, ∀ m ∈ g.2, m ∈ ys ∧ m.path ∉ used := by
  intro ys
  induction ys with
  | nil => intro used i g hg; cases hg
  | cons x xs ih =>
      intro used i g hg m hm
      by_cases hx : x.path ∈ used
      · simp only [greedyLoop, if_pos hx] at hg
        obtain ⟨h1, h2⟩ := ih used (i + 1) g hg m hm
        exact ⟨List.mem_cons_of_mem _ h1, h2⟩
      · simp only [greedyLoop, if_neg hx] at hg
        by_cases hlen : 1 < (x :: (absorbLoop threshold x xs (x.path :: used)).1).length
        · rw [if_pos hlen] at hg
          rcases List.mem_cons.mp hg with rfl | hg
          · rcases List.mem_cons.mp hm with rfl | hm
            · exact ⟨List.mem_cons_self _ _, hx⟩
            · obtain ⟨h1, h2⟩ := absorb_mem threshold x xs (x.path :: used) m hm
              exact ⟨List.mem_cons_of_mem _ h1, fun hc => h2 (List.mem_cons_of_mem _ hc)⟩
          · obtain ⟨h1, h2⟩ := ih _ (i + 1) g hg m hm
            refine ⟨List.mem_cons_of_mem _ h1, fun hc => h2 ?_⟩
            exact absorb_used_mono threshold x xs (x.path :: used) (List.mem_cons_of_mem _ hc)
        · rw [if_neg hlen] at hg
          obtain ⟨h1, h2⟩ := ih _ (i + 1) g hg m hm
          refine ⟨List.mem_cons_of_mem _ h1, fun hc => h2 ?_⟩
          exact absorb_used_mono threshold x xs (x.path :: used) (List.mem_cons_of_mem _ hc)

theorem filter_length_mono (p q : HashedImage → Bool) (h : ∀ a, p a = true → q a = true) :
    ∀ l : List HashedImage, (l.filter p).length ≤ (l.filter q).length := by
  intro l
  induction l with
  | nil => simp
  | cons a l ih =>
      by_cases hp : p a = true
      · have hq := h a hp
        simp only [List.filter_cons, hp, hq, if_pos, List.length_cons]
        omega
      · by_cases hq : q a = true <;>
          simp only [List.filter_cons, hp, hq, if_pos, if_neg, Bool.false_eq_true,
            not_false_iff, List.length_cons] <;>
          omega

/-- C2 amended: the clustering is not monotone in general (see the
counterexample), but the group anchored at the first-listed image is: under
distinct paths, any image grouped with the first image at threshold τ₁ is
grouped with it at any larger threshold τ₂, since the first group is exactly
the anchor plus all later images within τ of its hash. -/
theorem C2_first_group_monotone (τ₁ τ₂ : ℕ) (hτ : τ₁ < τ₂) (x : HashedImage)
    (xs : List HashedImage) (hnd : ((x :: xs).map (fun m => m.path)).Nodup) (q : String)
    (h1 : sameGroup x.path q (greedyClusterImages τ₁ (x :: xs))) :
    sameGroup x.path q (greedyClusterImages τ₂ (x :: xs)) := by
  simp only [List.map_cons, List.nodup_cons] at hnd
  have hfresh : ∀ y ∈ xs, y.path ∉ [x.path] := by
    intro y hy
    simp only [List.mem_singleton]
    exact fun he => hnd.1 (he ▸ List.mem_map_of_mem _ hy)
  have hred : ∀ τ, greedyClusterImages τ (x :: xs) =
      (if 1 < (x :: (absorbLoop τ x xs [x.path]).1).length then
        (0, x :: (absorbLoop τ x xs [x.path]).1) :: greedyLoop τ xs (absorbLoop τ x xs [x.path]).2 1
      else greedyLoop τ xs (absorbLoop τ x xs [x.path]).2 1) := by
    intro τ
    simp [greedyClusterImages, greedyLoop]
  have habs : ∀ τ, (absorbLoop τ x xs [x.path]).1 =
      xs.filter (fun y => decide (hamming x.hash y.hash ≤ τ)) := by
    intro τ
    exact absorb_fresh τ x xs [x.path] hfresh hnd.2
  -- the only group containing the first path is the first group
  obtain ⟨g, hg, hxg, hqg⟩ := h1
  have hnotrest : g ∉ greedyLoop τ₁ xs (absorbLoop τ₁ x xs [x.path]).2 1 := by
    intro hrest
    obtain ⟨mx, hmx, hmxp⟩ := List.mem_map.mp hxg
    obtain ⟨_, hnu⟩ := greedy_mem τ₁ xs _ 1 g hrest mx hmx
    exact hnu (hmxp ▸ absorb_used_mono τ₁ x xs [x.path] (List.mem_singleton.mpr rfl))
  rw [hred τ₁] at hg
  by_cases hlen : 1 < (x :: (absorbLoop τ₁ x xs [x.path]).1).length
  · rw [if_pos hlen] at hg
    rcases List.mem_cons.mp hg with rfl | hg
    · -- q is the anchor or an absorbed member at τ₁; both stay at τ₂
      have hlen2 : 1 < (x :: (absorbLoop τ₂ x xs [x.path]).1).length := by
        rw [habs τ₂]
        rw [habs τ₁] at hlen
        have := filter_length_mono
          (fun y => decide (hamming x.hash y.hash ≤ τ₁))
          (fun y => decide (hamming x.hash y.hash ≤ τ₂))
          (fun a ha => by
            simp only [decide_eq_true_eq] at ha ⊢
            omega) xs
        simp only [List.length_cons] at hlen ⊢
        omega
      refine ⟨(0, x :: (absorbLoop τ₂ x xs [x.path]).1), ?_, ?_, ?_⟩
      · rw [hred τ₂, if_pos hlen2]
        exact List.mem_cons_self _ _
      · exact List.mem_map_of_mem _ (List.mem_cons_self _ _)
      · simp only [List.map_cons, List.mem_cons] at hqg ⊢
        rcases hqg with hqg | hqg
        · exact Or.inl hqg
        · right
          rw [habs τ₂]
          rw [habs τ₁] at hqg
          obtain ⟨mq, hmq, hmqp⟩ := List.mem_map.mp hqg
          refine List.mem_map.mpr ⟨mq, ?_, hmqp⟩
          have h1 := List.mem_filter.mp hmq
          refine List.mem_filter.mpr ⟨h1.1, ?_⟩
          have h2 := h1.2
          simp only [decide_eq_true_eq] at h2 ⊢
          omega
    · exact absurd hg hnotrest
  · rw [if_neg hlen] at hg
    exact absurd hg hnotrest

/-- C2 amended witness: at thresholds 1 < 2, "c" stays grouped with the first
image "b". -/
theorem C2_first_group_monotone_witness :
    1 < 2 ∧ (([itB, itC].map (fun m => m.path)).Nodup) ∧
    sameGroup itB.path "c" (greedyClusterImages 1 [itB, itC]) ∧
    sameGroup itB.path "c" (greedyClusterImages 2 [itB, itC]) :=
  ⟨by decide, by decide, by decide,
   C2_first_group_monotone 1 2 (by decide) itB [itC] (by decide) "c" (by decide)⟩

/-! ## Claim C10: failed-hash images never reach similar_groups -/

theorem imgContrib_some {ft : FileFeat} {k : String} {v : String × ℚ × ℤ × ℤ}
    (h : imgContrib ft = some (k, v)) : truthyStr ft.phash = true ∧ v.1 = ft.path := by
  unfold imgContrib at h
  by_cases ht : truthyStr ft.phash
  · rw [if_pos ht] at h
    obtain ⟨_, hv⟩ := Prod.mk.injEq _ _ _ _ ▸ Option.some.inj h
    exact ⟨ht, by rw [← hv]⟩
  · rw [if_neg ht] at h
    cases h

/-- C10: a file whose acquired perceptual hash is falsy (`None` or the empty
string returned by `_calculate_phash` on failure) is never appended to
`phash_map`, so its path appears in no member list of the emitted
`similar_groups`. -/
theorem C10_failed_phash_excluded (blur_threshold : ℚ) (ex : Extractors)
    (files : List DiskFile) (n : ℕ) (db : DB) (ft : FileFeat)
    (hnd : ((scanAcquire ex files n db).map FileFeat.path).Nodup)
    (hft : ft ∈ scanAcquire ex files n db)
    (hfail : truthyStr ft.phash = false) :
    ∀ e ∈ (runScan blur_threshold ex files n db).similar_groups, ∀ m ∈ e.2, m.1 ≠ ft.path := by
  intro e he m hm hpath
  rw [runScan_eq] at he
  have hpm : e ∈ mapFold imgContrib [] (scanAcquire ex files n db) := by
    have h1 := (List.mem_filter.mp he).1
    rwa [show (List.foldl (stepAggregate blur_threshold) initState
        (scanAcquire ex files n db)).phash_map =
          mapFold imgContrib [] (scanAcquire ex files n db) from
        foldl_stepAggregate_phash_map blur_threshold (scanAcquire ex files n db) initState] at h1
  have hknd : ((mapFold imgContrib ([] : List (String × List (String × ℚ × ℤ × ℤ)))
      (scanAcquire ex files n db)).map Prod.fst).Nodup :=
    keysNodup_mapFold imgContrib (scanAcquire ex files n db) [] (by simp)
  have hget := dictGet_of_mem hknd hpm
  have hval := dictGet_mapFold_getD imgContrib e.1 (scanAcquire ex files n db) []
  rw [hget] at hval
  simp only [Option.getD_some, dictGet, Option.getD_none, List.nil_append] at hval
  rw [hval] at hm
  obtain ⟨b, hb, hcontrib⟩ := mem_addsOf hm
  obtain ⟨htruthy, hbpath⟩ := imgContrib_some hcontrib
  have hbft : b = ft :=
    List.inj_on_of_nodup_map hnd hb hft (by rw [← hbpath, hpath])
  rw [hbft] at htruthy
  rw [htruthy] at hfail
  cases hfail

/-- C10 witness: a run over one failed-hash image and one good image; the
failed one is absent from every emitted group. -/
theorem C10_failed_phash_excluded_witness :
    (((scanAcquire extractBad [fileBad, fileA] 2 (some emptyStore)).map FileFeat.path).Nodup) ∧
    (⟨"bad.jpg", 9, some 50, some 1, some "", none, none⟩ : FileFeat) ∈
      scanAcquire extractBad [fileBad, fileA] 2 (some emptyStore) ∧
    truthyStr (some "") = false ∧
    (∀ e ∈ (runScan 100 extractBad [fileBad, fileA] 2 (some emptyStore)).similar_groups,
      ∀ m ∈ e.2, m.1 ≠ "bad.jpg") :=
  ⟨by decide, by decide, by decide,
   C10_failed_phash_excluded 100 extractBad [fileBad, fileA] 2 (some emptyStore)
     ⟨"bad.jpg", 9, some 50, some 1, some "", none, none⟩ (by decide) (by decide) (by decide)⟩

/-! ## Claim C7: the duplicate-video grouping rule -/

theorem vidContrib_some {ft : FileFeat} {k : ℤ × String} {v : String × ℚ}
    (h : vidContrib ft = some (k, v)) :
    ∃ d fh, ft.video_duration = some d ∧ ft.video_frame_hash = some fh ∧ fh ≠ "" ∧
      k = (pyInt d, fh) ∧ v = (ft.path, d) := by
  unfold vidContrib at h
  cases hd : ft.video_duration with
  | none => rw [hd] at h; cases h
  | some d =>
      rw [hd] at h
      dsimp only at h
      by_cases ht : truthyStr ft.video_frame_hash
      · rw [if_pos ht] at h
        obtain ⟨hk, hv⟩ := Prod.mk.injEq _ _ _ _ ▸ Option.some.inj h
        cases hfh : ft.video_frame_hash with
        | none => rw [hfh] at ht; cases ht
        | some fh =>
            refine ⟨d, fh, rfl, rfl, ?_, ?_, hv.symm⟩
            · rw [hfh] at ht
              simpa [truthyStr] using ht
            · rw [hfh] at hk
              exact hk.symm
      · rw [if_neg ht] at h
        cases h

theorem vidContrib_eq {ft : FileFeat} {d : ℚ} {fh : String}
    (hd : ft.video_duration = some d) (hh : ft.video_frame_hash = some fh) (hne : fh ≠ "") :
    vidContrib ft = some ((pyInt d, fh), (ft.path, d)) := by
  unfold vidContrib
  rw [hd, hh]
  simp [truthyStr, hne]

theorem one_lt_length_of_mem_ne {α : Type} {a b : α} {l : List α}
    (ha : a ∈ l) (hb : b ∈ l) (hab : a ≠ b) : 1 < l.length := by
  cases l with
  | nil => cases ha
  | cons x xs =>
      cases xs with
      | nil =>
          simp only [List.mem_singleton] at ha hb
          exact absurd (ha.trans hb.symm) hab
      | cons y ys =>
          simp only [List.length_cons]
          omega

/-- C7 counterexample: all four videos' durations truncate to 12 seconds;
v1/v2 have bit-identical mid-frame hashes, yet after the run over all four
they are in no common duplicate-video group, because the emitted dict is keyed
by a label using only the first 8 hash characters and the colliding later key
(v3/v4, same bucket, same first 8 characters) overwrote their group. -/
theorem C7_video_group_counterexample :
    extractV.analyzeVideo "v1.mp4" = (some (mkRat 62 5), some "aaaaaaaa00") ∧
    extractV.analyzeVideo "v2.mp4" = (some (mkRat 63 5), some "aaaaaaaa00") ∧
    pyInt (mkRat 62 5) = pyInt (mkRat 63 5) ∧
    ¬ sameVideoGroup "v1.mp4" "v2.mp4" (runScan 100 extractV vfiles 4 (some emptyStore)) :=
  ⟨by decide, by decide, by decide, by decide⟩

/-- C7 amended: two videos with acquired durations and (truthy) frame hashes
land in a common emitted duplicate-video group iff their durations truncate to
the same integer second and their frame hashes are identical — provided no two
distinct (duration-bucket, frame-hash) keys of the run collide on the rendered
group label (same bucket and same first 8 hash characters); a colliding later
key overwrites the earlier group (see the counterexample). -/
theorem C7_video_group_iff (blur_threshold : ℚ) (ex : Extractors) (files : List DiskFile)
    (n : ℕ) (db : DB) (fp fq : FileFeat) (dp dq : ℚ) (hp hq : String)
    (hnd : ((scanAcquire ex files n db).map FileFeat.path).Nodup)
    (hfp : fp ∈ scanAcquire ex files n db) (hfq : fq ∈ scanAcquire ex files n db)
    (hdp : fp.video_duration = some dp) (hhp : fp.video_frame_hash = some hp) (hp0 : hp ≠ "")
    (hdq : fq.video_duration = some dq) (hhq : fq.video_frame_hash = some hq) (hq0 : hq ≠ "")
    (hpq : fp.path ≠ fq.path)
    (hcol : ∀ f ∈ scanAcquire ex files n db, ∀ g ∈ scanAcquire ex files n db,
      ∀ kf kg, vidContrib f = some kf → vidContrib g = some kg →
        videoGroupKey kf.1 = videoGroupKey kg.1 → kf.1 = kg.1) :
    sameVideoGroup fp.path fq.path (runScan blur_threshold ex files n db) ↔
      pyInt dp = pyInt dq ∧ hp = hq := by
  have hdup : (runScan blur_threshold ex files n db).duplicate_videos =
      ((mapFold vidContrib [] (scanAcquire ex files n db)).filter
        (fun e => 1 < e.2.length)).foldl
          (fun acc e => dictSet (videoGroupKey e.1) e.2 acc) [] := by
    rw [runScan_eq]
    simp only [finalizeResult]
    rw [foldl_stepAggregate_video_map]
    rfl
  have hknd :=
    keysNodup_mapFold vidContrib (scanAcquire ex files n db)
      ([] : List ((ℤ × String) × List (String × ℚ))) (by simp)
  have hval : ∀ e ∈ mapFold vidContrib [] (scanAcquire ex files n db),
      e.2 = addsOf vidContrib e.1 (scanAcquire ex files n db) := by
    intro e he
    have hget := dictGet_of_mem hknd he
    have hgd := dictGet_mapFold_getD vidContrib e.1 (scanAcquire ex files n db) []
    rw [hget] at hgd
    simpa [dictGet] using hgd
  have horigin : ∀ e ∈ mapFold vidContrib [] (scanAcquire ex files n db),
      ∃ b ∈ scanAcquire ex files n db, ∃ v, vidContrib b = some (e.1, v) := by
    intro e he
    have hget := dictGet_of_mem hknd he
    have hne2 : addsOf vidContrib e.1 (scanAcquire ex files n db) ≠ [] := by
      intro hempty
      have hnone : dictGet e.1 (mapFold vidContrib [] (scanAcquire ex files n db)) = none :=
        (dictGet_mapFold_none vidContrib e.1 (scanAcquire ex files n db) []).mpr ⟨rfl, hempty⟩
      rw [hget] at hnone
      cases hnone
    obtain ⟨v, hv⟩ := List.exists_mem_of_ne_nil _ hne2
    obtain ⟨b, hb, hcb⟩ := mem_addsOf hv
    exact ⟨b, hb, v, hcb⟩
  unfold sameVideoGroup
  rw [hdup]
  constructor
  · rintro ⟨entry, hentry, ⟨xp, hxp, hxp1⟩, ⟨xq, hxq, hxq1⟩⟩
    rcases mem_foldl_dictSet videoGroupKey _ [] entry hentry with ⟨en, hen, he2⟩ | habs
    · have henvm := (List.mem_filter.mp hen).1
      have hen2 : entry.2 = addsOf vidContrib en.1 (scanAcquire ex files n db) :=
        he2.trans (hval en henvm)
      rw [hen2] at hxp hxq
      obtain ⟨bp, hbp, hcbp⟩ := mem_addsOf hxp
      obtain ⟨bq, hbq, hcbq⟩ := mem_addsOf hxq
      obtain ⟨d1, fh1, hd1, hh1, hne1, hk1, hv1⟩ := vidContrib_some hcbp
      obtain ⟨d2, fh2, hd2, hh2, hne2b, hk2, hv2⟩ := vidContrib_some hcbq
      have hbpfp : bp = fp := by
        refine List.inj_on_of_nodup_map hnd hbp hfp ?_
        rw [show bp.path = xp.1 from by rw [hv1], hxp1]
      have hbqfq : bq = fq := by
        refine List.inj_on_of_nodup_map hnd hbq hfq ?_
        rw [show bq.path = xq.1 from by rw [hv2], hxq1]
      rw [hbpfp] at hcbp
      rw [hbqfq] at hcbq
      have hfpk := (vidContrib_eq hdp hhp hp0).symm.trans hcbp
      have hfqk := (vidContrib_eq hdq hhq hq0).symm.trans hcbq
      have hk1e : ((pyInt dp, hp) : ℤ × String) = en.1 :=
        (Prod.mk.injEq _ _ _ _ ▸ Option.some.inj hfpk).1
      have hk2e : ((pyInt dq, hq) : ℤ × String) = en.1 :=
        (Prod.mk.injEq _ _ _ _ ▸ Option.some.inj hfqk).1
      have hkk := hk1e.trans hk2e.symm
      exact ⟨(Prod.mk.injEq _ _ _ _ ▸ hkk).1, (Prod.mk.injEq _ _ _ _ ▸ hkk).2⟩
    · cases habs
  · rintro ⟨hket, hhash⟩
    have hcp : vidContrib fp = some ((pyInt dp, hp), (fp.path, dp)) :=
      vidContrib_eq hdp hhp hp0
    have hcq : vidContrib fq = some ((pyInt dp, hp), (fq.path, dq)) := by
      rw [vidContrib_eq hdq hhq hq0, ← hket, ← hhash]
    have hmp : (fp.path, dp) ∈ addsOf vidContrib ((pyInt dp, hp)) (scanAcquire ex files n db) :=
      addsOf_mem hfp hcp
    have hmq : (fq.path, dq) ∈ addsOf vidContrib ((pyInt dp, hp)) (scanAcquire ex files n db) :=
      addsOf_mem hfq hcq
    have hlen : 1 < (addsOf vidContrib ((pyInt dp, hp)) (scanAcquire ex files n db)).length :=
      one_lt_length_of_mem_ne hmp hmq (by
        intro hcontra
        exact hpq (Prod.mk.injEq _ _ _ _ ▸ hcontra).1)
    have hsome : dictGet ((pyInt dp, hp))
        (mapFold vidContrib [] (scanAcquire ex files n db)) =
          some (addsOf vidContrib ((pyInt dp, hp)) (scanAcquire ex files n db)) := by
      cases hdg : dictGet ((pyInt dp, hp))
          (mapFold vidContrib [] (scanAcquire ex files n db)) with
      | none =>
          have := (dictGet_mapFold_none vidContrib ((pyInt dp, hp))
            (scanAcquire ex files n db) []).mp hdg
          rw [this.2] at hmp
          cases hmp
      | some w =>
          have hgd := dictGet_mapFold_getD vidContrib ((pyInt dp, hp))
            (scanAcquire ex files n db) []
          rw [hdg] at hgd
          simp only [Option.getD_some, dictGet, Option.getD_none, List.nil_append] at hgd
          rw [hgd]
    have hmemvm := mem_of_dictGet hsome
    have hmemfil : (((pyInt dp, hp)),
        addsOf vidContrib ((pyInt dp, hp)) (scanAcquire ex files n db)) ∈
          (mapFold vidContrib [] (scanAcquire ex files n db)).filter
            (fun e => 1 < e.2.length) :=
      List.mem_filter.mpr ⟨hmemvm, by simpa using hlen⟩
    have hlblinj : ∀ x ∈ (mapFold vidContrib [] (scanAcquire ex files n db)).filter
        (fun e => 1 < e.2.length), ∀ y ∈ (mapFold vidContrib []
          (scanAcquire ex files n db)).filter (fun e => 1 < e.2.length),
        videoGroupKey x.1 = videoGroupKey y.1 → x.1 = y.1 := by
      intro x hx y hy hl
      obtain ⟨bx, hbx, vx, hcx⟩ := horigin x (List.mem_filter.mp hx).1
      obtain ⟨b2, hb2, v2, hc2⟩ := horigin y (List.mem_filter.mp hy).1
      exact hcol bx hbx b2 hb2 _ _ hcx hc2 hl
    have hlblnodup : (((mapFold vidContrib [] (scanAcquire ex files n db)).filter
        (fun e => 1 < e.2.length)).map (fun en => videoGroupKey en.1)).Nodup := by
      have hkeysnd : (((mapFold vidContrib [] (scanAcquire ex files n db)).filter
          (fun e => 1 < e.2.length)).map Prod.fst).Nodup :=
        hknd.sublist ((List.filter_sublist _).map Prod.fst)
      rw [show ((mapFold vidContrib [] (scanAcquire ex files n db)).filter
          (fun e => 1 < e.2.length)).map (fun en => videoGroupKey en.1) =
          (((mapFold vidContrib [] (scanAcquire ex files n db)).filter
            (fun e => 1 < e.2.length)).map Prod.fst).map videoGroupKey from by
        rw [List.map_map]
        rfl]
      refine List.Nodup.map_on ?_ hkeysnd
      intro x hx y hy hxy
      obtain ⟨ex1, hex, hex1⟩ := List.mem_map.mp hx
      obtain ⟨ey1, hey, hey1⟩ := List.mem_map.mp hy
      rw [← hex1, ← hey1] at hxy ⊢
      exact hlblinj ex1 hex ey1 hey hxy
    have hfold := foldl_dictSet_fresh videoGroupKey
      ((mapFold vidContrib [] (scanAcquire ex files n db)).filter (fun e => 1 < e.2.length))
      [] (fun en _ => rfl) hlblnodup
    rw [hfold]
    refine ⟨(videoGroupKey ((pyInt dp, hp)),
        addsOf vidContrib ((pyInt dp, hp)) (scanAcquire ex files n db)), ?_,
      ⟨(fp.path, dp), hmp, rfl⟩, ⟨(fq.path, dq), hmq, rfl⟩⟩
    simp only [List.nil_append]
    exact List.mem_map.mpr ⟨_, hmemfil, rfl⟩

/-- C7 amended witness: a run over just v1 and v2 (no colliding key), where
the two videos share bucket 12 and an identical frame hash, and the iff
resolves to a true equivalence. -/
theorem C7_video_group_iff_witness :
    ((scanAcquire extractV vfiles2 2 (some emptyStore)).map FileFeat.path).Nodup ∧
    featV1 ∈ scanAcquire extractV vfiles2 2 (some emptyStore) ∧
    featV2 ∈ scanAcquire extractV vfiles2 2 (some emptyStore) ∧
    featV1.video_duration = some (mkRat 62 5) ∧
    featV1.video_frame_hash = some "aaaaaaaa00" ∧
    "aaaaaaaa00" ≠ "" ∧
    featV2.video_duration = some (mkRat 63 5) ∧
    featV2.video_frame_hash = some "aaaaaaaa00" ∧
    featV1.path ≠ featV2.path ∧
    (∀ f ∈ scanAcquire extractV vfiles2 2 (some emptyStore),
      ∀ g ∈ scanAcquire extractV vfiles2 2 (some emptyStore),
      ∀ kf kg, vidContrib f = some kf → vidContrib g = some kg →
        videoGroupKey kf.1 = videoGroupKey kg.1 → kf.1 = kg.1) ∧
    (sameVideoGroup featV1.path featV2.path
        (runScan 100 extractV vfiles2 2 (some emptyStore)) ↔
      pyInt (mkRat 62 5) = pyInt (mkRat 63 5) ∧ "aaaaaaaa00" = "aaaaaaaa00") := by
  have hacq : scanAcquire extractV vfiles2 2 (some emptyStore) = [featV1, featV2] := by decide
  have h1 : vidContrib featV1 = some ((12, "aaaaaaaa00"), ("v1.mp4", mkRat 62 5)) := by decide
  have h2 : vidContrib featV2 = some ((12, "aaaaaaaa00"), ("v2.mp4", mkRat 63 5)) := by decide
  have hk : ∀ f ∈ [featV1, featV2], ∀ kf0 : (ℤ × String) × String × ℚ,
      vidContrib f = some kf0 → kf0.1 = (12, "aaaaaaaa00") := by
    intro f hf kf0 hc
    rcases List.mem_cons.mp hf with rfl | hf2
    · rw [h1] at hc
      rw [← Option.some.inj hc]
    · rcases List.mem_cons.mp hf2 with rfl | hf3
      · rw [h2] at hc
        rw [← Option.some.inj hc]
      · cases hf3
  have hcol : ∀ f ∈ scanAcquire extractV vfiles2 2 (some emptyStore),
      ∀ g ∈ scanAcquire extractV vfiles2 2 (some emptyStore),
      ∀ kf kg, vidContrib f = some kf → vidContrib g = some kg →
        videoGroupKey kf.1 = videoGroupKey kg.1 → kf.1 = kg.1 := by
    intro f hf g hg kf kg hcf hcg _
    rw [hacq] at hf hg
    rw [hk f hf kf hcf, hk g hg kg hcg]
  refine ⟨by decide, by decide, by decide, rfl, rfl, by decide, rfl, rfl, by decide, hcol, ?_⟩
  exact C7_video_group_iff 100 extractV vfiles2 2 (some emptyStore) featV1 featV2
    (mkRat 62 5) (mkRat 63 5) "aaaaaaaa00" "aaaaaaaa00"
    (by decide) (by decide) (by decide) rfl rfl (by decide) rfl rfl (by decide) (by decide) hcol

end SMC
